import Mathlib

/-!
Shallow embedding of `randomize.py`, a Minecraft texture randomizer.

Paths are modelled as lists of path segments (the pieces between `/`
separators).  `os.path.normpath` becomes `normSegs`, `os.path.join`
becomes list append, `os.path.splitext(...)[1]` becomes `splitext_ext`.
The source tree is a forest of named directories; `os.walk` with the
in-place pruning of `dirnames` becomes `walkForest`.  Python's
`random.shuffle` (Fisher-Yates driven by `_randbelow`) is modelled with
an abstract random tape `tape : Nat → Nat` and a position counter, the
draw `_randbelow n` at position `st` being `tape st % n`.
-/

namespace TextureRandomizer

abbrev Path := List String

/-- `str.split("/")` on the character list of a string. -/
def splitSegChars : List Char → List Char → List String
  | [], cur => [String.mk cur.reverse]
  | c :: cs, cur =>
      if c = '/' then String.mk cur.reverse :: splitSegChars cs []
      else splitSegChars cs (c :: cur)

/-- `str.split("/")` of one segment string. -/
def splitSeg (s : String) : List String :=
  splitSegChars s.data []

/-- One step of `posixpath.normpath`'s component loop, with the stack of
kept components in reverse order. -/
def normAux : List String → List String → List String
  | acc, [] => acc
  | acc, c :: cs =>
      if c = "" ∨ c = "." then normAux acc cs
      else if c = ".." then
        match acc with
        | [] => normAux [".."] cs
        | a :: rest => if a = ".." then normAux (c :: acc) cs else normAux rest cs
      else normAux (c :: acc) cs

/-- `os.path.normpath` of a relative path given as segments: split each
segment at `/`, drop empty and `.` components, resolve `..`, and return
`["."]` for an empty result. -/
def normSegs (p : List String) : Path :=
  let comps := p.flatMap splitSeg
  let r := (normAux [] comps).reverse
  if r = [] then ["."] else r

/-- `os.path.splitext(fn)[1]` for a bare file name: the suffix starting
at the last dot, unless every character before that dot is itself a dot
(so names like `.png` have no extension). -/
def splitext_ext (fn : String) : String :=
  let rev := fn.data.reverse
  let afterRev := rev.takeWhile (fun c => ¬ (c = '.'))
  if afterRev.length = rev.length then ""
  else
    let stem := (rev.drop (afterRev.length + 1)).reverse
    if stem.all (fun c => c = '.') then ""
    else String.mk ('.' :: afterRev.reverse)

/-- The file filter of the walk loop: keep exactly the names whose
extension is the literal `".png"`. -/
def pngFilter (filenames : List String) : List String :=
  filenames.filter (fun fn => splitext_ext fn == ".png")

/-- A config path entry: either a plain string or a list of segments to
be joined (`join_config_path` in the source). -/
inductive ConfigPath : Type where
  | str (s : String) : ConfigPath
  | segs (l : List String) : ConfigPath
deriving DecidableEq

/-- `join_config_path`, returning the path's segments. -/
def join_config_path : ConfigPath → List String
  | .str s => [s]
  | .segs l => l

/-- Line 146: `os.path.normpath(os.path.join(".", join_config_path(dp)))`
for each configured excluded directory. -/
def mkExcludedDirs (cfg : List ConfigPath) : List Path :=
  cfg.map (fun dp => normSegs ("." :: join_config_path dp))

/-- Line 148: the same normalization applied inside each compatibility
group. -/
def mkCompatGroups (cfg : List (List ConfigPath)) : List (List Path) :=
  cfg.map (fun group => group.map (fun dp => normSegs ("." :: join_config_path dp)))

/-- A forest of directories: each entry carries its name, its own
subforest and its list of file names. -/
inductive FForest : Type where
  | nil : FForest
  | cons (name : String) (sub : FForest) (files : List String) (rest : FForest) : FForest
deriving DecidableEq

/-- The source texture tree: the files directly in the root plus the
forest of subdirectories. -/
structure FTree : Type where
  rootFiles : List String
  subdirs : FForest
deriving DecidableEq

/-- `os.walk` below the start directory, with the source's pruning: a
subdirectory whose normalized path is in `excl` is removed from
`dirnames` before descent (lines 158-166).  Yields `(root, filenames)`
in top-down order. -/
def walkForest (excl : List Path) : List String → FForest → List (List String × List String)
  | _, .nil => []
  | path, .cons n sub fs rest =>
      (if excl.contains (normSegs (path ++ [n])) then []
       else (path ++ [n], fs) :: walkForest excl (path ++ [n]) sub)
      ++ walkForest excl path rest

/-- `os.walk(".")` over the tree, the start directory yielded first. -/
def osWalk (excl : List Path) (t : FTree) : List (List String × List String) :=
  (["."], t.rootFiles) :: walkForest excl ["."] t.subdirs

/-- `determine_compatibility_group`'s loop with the running index. -/
def dcgAux (dp : Path) : Nat → List (List Path) → Option Nat
  | _, [] => none
  | i, g :: gs => if g.contains (normSegs dp) then some i else dcgAux dp (i + 1) gs

/-- Lines 93-110: the index of the first group whose directory list
contains the normalized path, if any. -/
def determine_compatibility_group (dp : Path) (groups : List (List Path)) : Option Nat :=
  dcgAux dp 0 groups

/-- Line 177 with the extension filter applied: the eligible file paths
of one visited directory. -/
def eligibleFiles (e : List String × List String) : List Path :=
  (pngFilter e.2).map (fun fn => e.1 ++ [fn])

/-- The body of the walk loop, lines 168-184: filter the files, then
extend the matching configured group or append a new group. -/
def walkLoopBody (cgroups : List (List Path)) (acc : List (List Path))
    (e : List String × List String) : List (List Path) :=
  let filepaths := eligibleFiles e
  match determine_compatibility_group (normSegs e.1) cgroups with
  | some i => acc.set i (acc.getD i [] ++ filepaths)
  | none => acc ++ [filepaths]

/-- The walk loop folded over all visited directories. -/
def buildGroups (cgroups : List (List Path)) :
    List (List String × List String) → List (List Path) → List (List Path)
  | [], acc => acc
  | e :: rest, acc => buildGroups cgroups rest (walkLoopBody cgroups acc e)

/-- Swap the elements at positions `i` and `j` (`x[i], x[j] = x[j], x[i]`). -/
def listSwap {α : Type} (xs : List α) (i j : Nat) : List α :=
  match xs[i]?, xs[j]? with
  | some a, some b => (xs.set i b).set j a
  | _, _ => xs

/-- `random.shuffle`'s Fisher-Yates loop: at Python index `i + 1` draw
`j = tape st % (i + 2)` (that is, `_randbelow(i + 2)`) and swap. -/
def pyShuffleGo {α : Type} (tape : Nat → Nat) : Nat → List α → Nat → List α × Nat
  | 0, xs, st => (xs, st)
  | i + 1, xs, st =>
      let j := tape st % (i + 2)
      pyShuffleGo tape i (listSwap xs (i + 1) j) (st + 1)

/-- `random.shuffle(xs)` with the tape position threaded through. -/
def pyShuffle {α : Type} (tape : Nat → Nat) (xs : List α) (st : Nat) : List α × Nat :=
  pyShuffleGo tape (xs.length - 1) xs st

/-- Lines 189-195: for each group copy it, shuffle the copy, zip the
original with the shuffled copy, and concatenate all pairs. -/
def shuffleGroups (tape : Nat → Nat) : List (List Path) → Nat → List (Path × Path) × Nat
  | [], st => ([], st)
  | g :: gs, st =>
      let s := pyShuffle tape g st
      let r := shuffleGroups tape gs s.2
      (g.zip s.1 ++ r.1, r.2)

/-- The per-group pair chunks of `shuffleGroups`, kept separate. -/
def shuffleChunksAux (tape : Nat → Nat) : List (List Path) → Nat → List (List (Path × Path))
  | [], _ => []
  | g :: gs, st =>
      let s := pyShuffle tape g st
      g.zip s.1 :: shuffleChunksAux tape gs s.2

/-- The whole pure pipeline of `main` from config to the filepath pairs:
normalize the config, walk the tree with pruning, group the eligible
files, and shuffle each group (lines 146-195). -/
def runPairs (tape : Nat → Nat) (cfgE : List ConfigPath) (cfgG : List (List ConfigPath))
    (t : FTree) : List (Path × Path) :=
  let excluded_dirs := mkExcludedDirs cfgE
  let compatibility_groups := mkCompatGroups cfgG
  let walked := osWalk excluded_dirs t
  let filepath_groups :=
    buildGroups compatibility_groups walked (List.replicate compatibility_groups.length [])
  (shuffleGroups tape filepath_groups 0).1

/-- A plain path segment as a real file system entry name is: splitting
at `/` leaves it unchanged and it is none of `""`, `"."`, `".."`. -/
def plainSeg (s : String) : Bool :=
  (splitSeg s == [s]) && !(s == "") && !(s == ".") && !(s == "..")

/-- Every directory name and file name in the forest is plain. -/
def plainForest : FForest → Bool
  | .nil => true
  | .cons n sub fs rest =>
      plainSeg n && fs.all plainSeg && plainForest sub && plainForest rest

/-- Every name in the tree, root files included, is plain. -/
def plainTree (t : FTree) : Bool :=
  t.rootFiles.all plainSeg && plainForest t.subdirs

/-- `p` lies strictly below directory `d`: `d` is a proper prefix of the
segment list `p`. -/
def strictlyUnder (d p : Path) : Prop :=
  d <+: p ∧ d ≠ p

/-! ### A model of `main`'s phases with their external effects

The pure pipeline above covers lines 146-195.  The claims about exit
behaviour, created artifacts and the working directory concern the
surrounding I/O, modelled here: the relevant facts of the environment
(does `pack` exist, does the texture root exist, does an exception hit
the walk loop, does `shutil.rmtree` fail) are inputs, and the outcome
records how the process ended and which artifacts had been created. -/

/-- Render a relative path under a root directory name, for the created
artifact list. -/
def joinUnder (root : String) (p : Path) : String :=
  p.foldl (fun acc seg => acc ++ "/" ++ seg) root

/-- The artifacts `create_pack` and the copy loop create, in order:
the pack root, `pack.mcmeta`, the nested asset directories, then one
file per destination path (lines 199-219). -/
def createdUpTo (packName : String) (pairs : List (Path × Path)) : List String :=
  packName :: (packName ++ "/pack.mcmeta") :: (packName ++ "/assets") ::
    (packName ++ "/assets/minecraft") :: (packName ++ "/assets/minecraft/textures") ::
    pairs.map (fun pr => joinUnder (packName ++ "/assets/minecraft/textures") pr.2)

/-- The phase of `main` an uncaught exception escapes from. -/
inductive Phase : Type where
  | seedParse : Phase
  | traversal : Phase
  | cleanup : Phase
deriving DecidableEq

/-- How a run of `main` ends: an uncaught exception (the interpreter
prints the error and exits nonzero), an explicit `sys.exit`, or normal
completion.  Each outcome carries the artifacts created up to that
point, and success also carries what was removed again. -/
inductive MainOutcome : Type where
  | uncaught (p : Phase) (errMsg : String) (created : List String) : MainOutcome
  | exitFail (code : Nat) (msg : String) (created : List String) : MainOutcome
  | success (created : List String) (removed : List String) : MainOutcome
deriving DecidableEq

/-- Did the run terminate abnormally (uncaught exception, or `sys.exit`
with a nonzero code)? -/
def MainOutcome.isAbnormal : MainOutcome → Bool
  | .uncaught _ _ _ => true
  | .exitFail c _ _ => c != 0
  | .success _ _ => false

/-- The artifacts the run had created when it ended. -/
def MainOutcome.createdFiles : MainOutcome → List String
  | .uncaught _ _ created => created
  | .exitFail _ _ created => created
  | .success created _ => created

/-- The error text the run surfaced, `""` on success. -/
def MainOutcome.message : MainOutcome → String
  | .uncaught _ msg _ => msg
  | .exitFail _ msg _ => msg
  | .success _ _ => ""

/-- `main`, lines 126-230.  `argSeed` is `none` when no argument was
given, `some none` when the argument does not parse as an integer (then
`int(sys.argv[1])` raises before anything else), `some (some s)` when it
parses.  `packExists` is `os.path.exists("pack")` (line 139 checks only
this); `srcTexturesExists` is whether `pack/assets/minecraft/textures`
itself exists — when it does not but `pack` does, the explicit check
passes and `os.chdir` at line 156 raises instead.  `rmtreeFails` is
whether `shutil.rmtree` at line 229 raises; there is no handler, so the
exception escapes after the archive was already written. -/
def mainModel (argSeed : Option (Option Int)) (packExists srcTexturesExists : Bool)
    (cfgE : List ConfigPath) (cfgG : List (List ConfigPath)) (t : FTree)
    (tape : Nat → Nat) (packName : String) (rmtreeFails : Bool) : MainOutcome :=
  match argSeed with
  | some none => .uncaught .seedParse "ValueError: invalid literal for int()" []
  | _ =>
    if packExists = false then
      .exitFail 1 "error: source directory must exist" []
    else if srcTexturesExists = false then
      .uncaught .traversal "FileNotFoundError: pack/assets/minecraft/textures" []
    else
      let pairs := runPairs tape cfgE cfgG t
      let created := createdUpTo packName pairs ++ [packName ++ ".zip"]
      if rmtreeFails then
        .uncaught .cleanup "error: could not remove intermediate directory" created
      else
        .success created [packName]

/-- The walk loop of lines 158-184 with an optional injected failure:
`errAt = some k` raises an uncaught exception at iteration `k` of the
loop (any runtime error there), `none` lets it run through. -/
def walkLoopErr (cgroups : List (List Path)) :
    Option Nat → List (List String × List String) → List (List Path) →
      Except Unit (List (List Path))
  | _, [], acc => .ok acc
  | errAt, e :: rest, acc =>
      if errAt = some 0 then .error ()
      else walkLoopErr cgroups (errAt.map (fun k => k - 1)) rest (walkLoopBody cgroups acc e)

/-- Lines 155-186: save the working directory, `os.chdir` into the
texture root, run the walk loop, and `os.chdir` back — but the restore
at line 186 is only reached when the loop raises nothing; an exception
propagates with the working directory still the texture root.  Returns
the loop's outcome and the working directory as the phase is left. -/
def traversalPhase (original_cwd src_path : Path) (cgroups : List (List Path))
    (walked : List (List String × List String)) (errAt : Option Nat) :
    Except Unit (List (List Path)) × Path :=
  match walkLoopErr cgroups errAt walked (List.replicate cgroups.length []) with
  | .error u => (.error u, src_path)
  | .ok gs => (.ok gs, original_cwd)

/-! ### Permutation facts about the Fisher-Yates shuffle -/

theorem perm_cons_set {α : Type} (b a : α) :
    ∀ (xs : List α) (j : Nat), xs[j]? = some b →
      List.Perm (b :: xs.set j a) (a :: xs) := by
  intro xs
  induction xs with
  | nil => intro j h; simp at h
  | cons x t ih =>
    intro j h
    match j with
    | 0 =>
      simp at h
      subst h
      simpa [List.set] using List.Perm.swap a x t
    | k + 1 =>
      simp at h
      have h1 : List.Perm (b :: t.set k a) (a :: t) := ih k h
      have h2 : List.Perm (b :: x :: t.set k a) (x :: b :: t.set k a) :=
        List.Perm.swap x b _
      have h3 : List.Perm (x :: b :: t.set k a) (x :: a :: t) := List.Perm.cons x h1
      have h4 : List.Perm (x :: a :: t) (a :: x :: t) := List.Perm.swap a x t
      simpa [List.set] using (h2.trans h3).trans h4

theorem set_set_perm {α : Type} :
    ∀ (xs : List α) (i j : Nat) (a b : α), xs[i]? = some a → xs[j]? = some b →
      List.Perm ((xs.set i b).set j a) xs := by
  intro xs
  induction xs with
  | nil => intro i j a b h; simp at h
  | cons x t ih =>
    intro i j a b hi hj
    match i, j with
    | 0, 0 =>
      simp at hi hj
      subst hi; subst hj
      simp [List.set]
    | 0, k + 1 =>
      simp at hi hj
      subst hi
      simpa [List.set] using perm_cons_set b x t k hj
    | m + 1, 0 =>
      simp at hi hj
      subst hj
      simpa [List.set] using perm_cons_set a x t m hi
    | m + 1, k + 1 =>
      simp at hi hj
      simpa [List.set] using List.Perm.cons x (ih m k a b hi hj)

theorem listSwap_perm {α : Type} (xs : List α) (i j : Nat) :
    List.Perm (listSwap xs i j) xs := by
  unfold listSwap
  cases hi : xs[i]? with
  | none => exact List.Perm.refl xs
  | some a =>
    cases hj : xs[j]? with
    | none => exact List.Perm.refl xs
    | some b => exact set_set_perm xs i j a b hi hj

theorem pyShuffleGo_perm {α : Type} (tape : Nat → Nat) :
    ∀ (i : Nat) (xs : List α) (st : Nat),
      List.Perm (pyShuffleGo tape i xs st).1 xs := by
  intro i
  induction i with
  | zero => intro xs st; exact List.Perm.refl xs
  | succ i ih =>
    intro xs st
    exact (ih (listSwap xs (i + 1) (tape st % (i + 2))) (st + 1)).trans
      (listSwap_perm xs (i + 1) (tape st % (i + 2)))

theorem pyShuffle_perm {α : Type} (tape : Nat → Nat) (xs : List α) (st : Nat) :
    List.Perm (pyShuffle tape xs st).1 xs :=
  pyShuffleGo_perm tape (xs.length - 1) xs st

theorem pyShuffle_length {α : Type} (tape : Nat → Nat) (xs : List α) (st : Nat) :
    (pyShuffle tape xs st).1.length = xs.length :=
  (pyShuffle_perm tape xs st).length_eq

/-! ### The per-group chunk structure of the shuffler -/

theorem shuffleGroups_eq_join (tape : Nat → Nat) :
    ∀ (gs : List (List Path)) (st : Nat),
      (shuffleGroups tape gs st).1 = (shuffleChunksAux tape gs st).flatten := by
  intro gs
  induction gs with
  | nil => intro st; rfl
  | cons g gs ih =>
    intro st
    simp [shuffleGroups, shuffleChunksAux, ih]

theorem shuffleChunksAux_length (tape : Nat → Nat) :
    ∀ (gs : List (List Path)) (st : Nat),
      (shuffleChunksAux tape gs st).length = gs.length := by
  intro gs
  induction gs with
  | nil => intro st; rfl
  | cons g gs ih => intro st; simp [shuffleChunksAux, ih]

theorem shuffleChunksAux_get (tape : Nat → Nat) :
    ∀ (gs : List (List Path)) (st : Nat) (i : Nat),
      i < gs.length →
      ∃ g chunk, gs[i]? = some g ∧ (shuffleChunksAux tape gs st)[i]? = some chunk ∧
        chunk.map Prod.fst = g ∧ List.Perm (chunk.map Prod.snd) g := by
  intro gs
  induction gs with
  | nil => intro st i h; simp at h
  | cons g gs ih =>
    intro st i h
    match i with
    | 0 =>
      refine ⟨g, g.zip (pyShuffle tape g st).1, by simp, by simp [shuffleChunksAux], ?_, ?_⟩
      · exact List.map_fst_zip g _ (le_of_eq (pyShuffle_length tape g st).symm)
      · rw [List.map_snd_zip g _ (le_of_eq (pyShuffle_length tape g st))]
        exact pyShuffle_perm tape g st
    | i + 1 =>
      simp only [List.length_cons, Nat.add_lt_add_iff_right] at h
      obtain ⟨g', chunk, h1, h2, h3, h4⟩ := ih (pyShuffle tape g st).2 i h
      exact ⟨g', chunk, by simpa using h1, by simpa [shuffleChunksAux] using h2, h3, h4⟩

/-- Claim C1: the pair list the shuffler produces is the concatenation of
one chunk per group; within each chunk the first components are exactly
the group's original paths in order, and the second components are a
permutation of them, so destination multiset equals source multiset per
group and no path of another group occurs in the chunk. -/
theorem shuffler_groupwise_permutation (tape : Nat → Nat) (gs : List (List Path)) (st : Nat) :
    ∃ chunks : List (List (Path × Path)),
      (shuffleGroups tape gs st).1 = chunks.flatten ∧
      chunks.length = gs.length ∧
      ∀ i, i < gs.length →
        ∃ g chunk, gs[i]? = some g ∧ chunks[i]? = some chunk ∧
          chunk.map Prod.fst = g ∧ List.Perm (chunk.map Prod.snd) g := by
  refine ⟨shuffleChunksAux tape gs st, shuffleGroups_eq_join tape gs st,
    shuffleChunksAux_length tape gs st, ?_⟩
  intro i h
  exact shuffleChunksAux_get tape gs st i h

/-- Claim C9: an empty group contributes no pairs and consumes no random
draws; a singleton group contributes exactly the identity pair on its
single file. -/
theorem empty_and_singleton_group_pairs (tape : Nat → Nat) (gs : List (List Path))
    (st : Nat) (x : Path) :
    shuffleGroups tape ([] :: gs) st = shuffleGroups tape gs st ∧
    (shuffleGroups tape ([x] :: gs) st).1 = (x, x) :: (shuffleGroups tape gs st).1 ∧
    (shuffleGroups tape ([x] :: gs) st).2 = (shuffleGroups tape gs st).2 := by
  refine ⟨rfl, ?_, ?_⟩ <;> simp [shuffleGroups, pyShuffle, pyShuffleGo]

/-- Claim C2: with the random source modelled as a tape that is a function
of the seed alone, two runs with equal seeds over equal configs and equal
source trees yield identical pair lists. -/
theorem run_deterministic_for_fixed_seed_and_tree (rng : Nat → Nat → Nat)
    (s₁ s₂ : Nat) (cfgE : List ConfigPath) (cfgG : List (List ConfigPath))
    (t₁ t₂ : FTree) (hs : s₁ = s₂) (ht : t₁ = t₂) :
    runPairs (rng s₁) cfgE cfgG t₁ = runPairs (rng s₂) cfgE cfgG t₂ := by
  subst hs; subst ht; rfl

/-- Witness for C2 at a concrete seed, config and tree. -/
theorem run_deterministic_witness :
    runPairs ((fun s n => s + n) 7) [] [[ConfigPath.str "item"]]
        ⟨["a.png"], FForest.cons "item" FForest.nil ["b.png", "c.png"] FForest.nil⟩ =
      runPairs ((fun s n => s + n) 7) [] [[ConfigPath.str "item"]]
        ⟨["a.png"], FForest.cons "item" FForest.nil ["b.png", "c.png"] FForest.nil⟩ :=
  run_deterministic_for_fixed_seed_and_tree (fun s n => s + n) 7 7 [] [[ConfigPath.str "item"]]
    ⟨["a.png"], FForest.cons "item" FForest.nil ["b.png", "c.png"] FForest.nil⟩
    ⟨["a.png"], FForest.cons "item" FForest.nil ["b.png", "c.png"] FForest.nil⟩ rfl rfl

/-! ### The classifier: first-match group lookup and group accumulation -/

theorem dcgAux_shift (dp : Path) :
    ∀ (gs : List (List Path)) (k : Nat),
      dcgAux dp k gs = (dcgAux dp 0 gs).map (· + k) := by
  intro gs
  induction gs with
  | nil => intro k; rfl
  | cons g gs ih =>
    intro k
    cases hdec : g.contains (normSegs dp) with
    | true =>
      have hmem : normSegs dp ∈ g := List.elem_iff.mp hdec
      simp [dcgAux, hmem]
    | false =>
      simp only [dcgAux, hdec]
      rw [if_neg (by simp), if_neg (by simp), ih (k + 1), ih 1]
      cases dcgAux dp 0 gs with
      | none => rfl
      | some m =>
        simp only [Option.map_some']
        congr 1
        omega

theorem dcg_cons (dp : Path) (g : List Path) (gs : List (List Path)) :
    determine_compatibility_group dp (g :: gs) =
      if g.contains (normSegs dp) then some 0
      else (determine_compatibility_group dp gs).map (· + 1) := by
  cases hdec : g.contains (normSegs dp) with
  | true =>
    have hmem : normSegs dp ∈ g := List.elem_iff.mp hdec
    simp [determine_compatibility_group, dcgAux, hmem]
  | false =>
    simp only [determine_compatibility_group, dcgAux, hdec]
    rw [if_neg (by simp), if_neg (by simp)]
    exact dcgAux_shift dp gs 1

theorem dcg_some_iff (dp : Path) :
    ∀ (gs : List (List Path)) (i : Nat),
      determine_compatibility_group dp gs = some i ↔
        ((∃ g, gs[i]? = some g ∧ normSegs dp ∈ g) ∧
         ∀ j g', j < i → gs[j]? = some g' → normSegs dp ∉ g') := by
  intro gs
  induction gs with
  | nil =>
    intro i
    simp [determine_compatibility_group, dcgAux]
  | cons g gs ih =>
    intro i
    rw [dcg_cons]
    cases hdec : g.contains (normSegs dp) with
    | true =>
      have hmem : normSegs dp ∈ g := List.elem_iff.mp hdec
      rw [if_pos rfl]
      constructor
      · intro h
        injection h with h0
        subst h0
        exact ⟨⟨g, by simp, hmem⟩, fun j g' hj _ => absurd hj (Nat.not_lt_zero j)⟩
      · rintro ⟨⟨g₀, hg₀, hmem₀⟩, hbefore⟩
        match i with
        | 0 => rfl
        | m + 1 => exact absurd hmem (hbefore 0 g (by omega) (by simp))
    | false =>
      have hnmem : normSegs dp ∉ g := by
        intro hm
        have h1 : List.elem (normSegs dp) g = true := List.elem_iff.mpr hm
        have h2 : List.elem (normSegs dp) g = false := hdec
        rw [h1] at h2
        simp at h2
      rw [if_neg (by simp)]
      match i with
      | 0 =>
        constructor
        · intro h
          rcases Option.map_eq_some'.mp h with ⟨m, _, hm⟩
          omega
        · rintro ⟨⟨g₀, hg₀, hmem₀⟩, _⟩
          have hg : g = g₀ := by simpa using hg₀
          subst hg
          exact absurd hmem₀ hnmem
      | m + 1 =>
        have hshift : (Option.map (· + 1) (determine_compatibility_group dp gs) =
            some (m + 1)) ↔ determine_compatibility_group dp gs = some m := by
          cases determine_compatibility_group dp gs with
          | none => simp
          | some m' =>
            simp only [Option.map_some', Option.some.injEq]
            omega
        rw [hshift, ih m]
        constructor
        · rintro ⟨⟨g₀, hg₀, hmem₀⟩, hbefore⟩
          refine ⟨⟨g₀, by simpa using hg₀, hmem₀⟩, ?_⟩
          intro j g' hj hg'
          match j with
          | 0 =>
            have hg : g = g' := by simpa using hg'
            subst hg
            exact hnmem
          | j' + 1 =>
            exact hbefore j' g' (by omega) (by simpa using hg')
        · rintro ⟨⟨g₀, hg₀, hmem₀⟩, hbefore⟩
          refine ⟨⟨g₀, by simpa using hg₀, hmem₀⟩, ?_⟩
          intro j g' hj hg'
          exact hbefore (j + 1) g' (by omega) (by simpa using hg')

theorem dcg_lt_length (dp : Path) (gs : List (List Path)) (i : Nat)
    (h : determine_compatibility_group dp gs = some i) : i < gs.length := by
  rcases ((dcg_some_iff dp gs i).mp h).1 with ⟨g, hg, _⟩
  rcases List.getElem?_eq_some.mp hg with ⟨hlt, _⟩
  exact hlt

theorem buildGroups_aux (cgroups : List (List Path)) :
    ∀ (walked : List (List String × List String)) (acc : List (List Path)),
      cgroups.length ≤ acc.length →
      ((buildGroups cgroups walked acc).length =
          acc.length + (walked.filter (fun e =>
            (determine_compatibility_group (normSegs e.1) cgroups).isNone)).length) ∧
      (∀ i a, i < cgroups.length → acc[i]? = some a →
          (buildGroups cgroups walked acc)[i]? =
            some (a ++ ((walked.filter (fun e =>
              determine_compatibility_group (normSegs e.1) cgroups == some i)).map
                eligibleFiles).flatten)) ∧
      (∀ k, cgroups.length ≤ k →
          (buildGroups cgroups walked acc)[k]? =
            (acc ++ (walked.filter (fun e =>
              (determine_compatibility_group (normSegs e.1) cgroups).isNone)).map
                eligibleFiles)[k]?) := by
  intro walked
  induction walked with
  | nil =>
    intro acc hlen
    refine ⟨by simp [buildGroups], ?_, ?_⟩
    · intro i a hi hacc
      simpa [buildGroups] using hacc
    · intro k hk
      simp [buildGroups]
  | cons e rest ih =>
    intro acc hlen
    cases hdcg : determine_compatibility_group (normSegs e.1) cgroups with
    | some i₀ =>
      have hi₀ : i₀ < cgroups.length := dcg_lt_length _ _ _ hdcg
      have hi₀acc : i₀ < acc.length := lt_of_lt_of_le hi₀ hlen
      have hbody : walkLoopBody cgroups acc e =
          acc.set i₀ (acc.getD i₀ [] ++ eligibleFiles e) := by
        simp [walkLoopBody, hdcg]
      have hlen' : cgroups.length ≤ (walkLoopBody cgroups acc e).length := by
        rw [hbody, List.length_set]
        exact hlen
      obtain ⟨ihA, ihB, ihC⟩ := ih (walkLoopBody cgroups acc e) hlen'
      have hstep : buildGroups cgroups (e :: rest) acc =
          buildGroups cgroups rest (walkLoopBody cgroups acc e) := rfl
      refine ⟨?_, ?_, ?_⟩
      · rw [hstep, ihA, hbody, List.length_set]
        simp [List.filter_cons, hdcg]
      · intro i a hi hacc
        rw [hstep]
        by_cases hii : i = i₀
        · subst hii
          have hgetD : acc.getD i [] = a := by
            rw [List.getD_eq_getElem?_getD, hacc]
            rfl
          have hacc' : (walkLoopBody cgroups acc e)[i]? = some (a ++ eligibleFiles e) := by
            rw [hbody, hgetD]
            exact List.getElem?_set_self hi₀acc
          rw [ihB i (a ++ eligibleFiles e) hi hacc']
          have hfe : (determine_compatibility_group (normSegs e.1) cgroups == some i) =
              true := by
            rw [hdcg]
            exact beq_self_eq_true _
          simp [List.filter_cons, hfe, List.append_assoc]
        · have hacc' : (walkLoopBody cgroups acc e)[i]? = some a := by
            rw [hbody, List.getElem?_set_ne (fun h => hii h.symm), hacc]
          rw [ihB i a hi hacc']
          have hfe : (determine_compatibility_group (normSegs e.1) cgroups == some i) =
              false := by
            rw [hdcg]
            exact beq_eq_false_iff_ne.mpr (fun h => hii (by injection h; omega))
          simp [List.filter_cons, hfe]
      · intro k hk
        rw [hstep, ihC k hk, hbody, ← List.set_append_left _ _ hi₀acc,
          List.getElem?_set_ne (by omega)]
        simp [List.filter_cons, hdcg]
    | none =>
      have hbody : walkLoopBody cgroups acc e = acc ++ [eligibleFiles e] := by
        simp [walkLoopBody, hdcg]
      have hlen' : cgroups.length ≤ (walkLoopBody cgroups acc e).length := by
        rw [hbody, List.length_append]
        omega
      obtain ⟨ihA, ihB, ihC⟩ := ih (walkLoopBody cgroups acc e) hlen'
      have hstep : buildGroups cgroups (e :: rest) acc =
          buildGroups cgroups rest (walkLoopBody cgroups acc e) := rfl
      refine ⟨?_, ?_, ?_⟩
      · rw [hstep, ihA, hbody, List.length_append]
        simp [List.filter_cons, hdcg]
        omega
      · intro i a hi hacc
        rw [hstep]
        have hacc' : (walkLoopBody cgroups acc e)[i]? = some a := by
          rw [hbody, List.getElem?_append_left (lt_of_lt_of_le hi hlen), hacc]
        rw [ihB i a hi hacc']
        have hfe : (determine_compatibility_group (normSegs e.1) cgroups == some i) =
            false := by
          rw [hdcg]
          rfl
        simp [List.filter_cons, hfe]
      · intro k hk
        rw [hstep, ihC k hk, hbody]
        simp [List.filter_cons, hdcg, List.append_assoc]

/-- Claim C6: (a) `determine_compatibility_group` returns the first
configured group, in configuration order, containing the normalized
path, and `none` when no group does; (b) over any walked directory list,
the configured groups keep their indices and collect exactly the
eligible files of the directories matched to them, and every unmatched
directory's eligible files become a fresh group appended after the
configured ones, in traversal order. -/
theorem classifier_first_match_and_singleton_append (cgroups : List (List Path))
    (walked : List (List String × List String)) :
    (∀ dp i, determine_compatibility_group dp cgroups = some i ↔
        ((∃ g, cgroups[i]? = some g ∧ normSegs dp ∈ g) ∧
         ∀ j g', j < i → cgroups[j]? = some g' → normSegs dp ∉ g')) ∧
    ((buildGroups cgroups walked (List.replicate cgroups.length [])).length =
        cgroups.length + (walked.filter (fun e =>
          (determine_compatibility_group (normSegs e.1) cgroups).isNone)).length) ∧
    (∀ i, i < cgroups.length →
        (buildGroups cgroups walked (List.replicate cgroups.length []))[i]? =
          some (((walked.filter (fun e =>
            determine_compatibility_group (normSegs e.1) cgroups == some i)).map
              eligibleFiles).flatten)) ∧
    ((buildGroups cgroups walked (List.replicate cgroups.length [])).drop
        cgroups.length =
      (walked.filter (fun e =>
        (determine_compatibility_group (normSegs e.1) cgroups).isNone)).map
          eligibleFiles) := by
  have hlen : cgroups.length ≤ (List.replicate cgroups.length ([] : List Path)).length := by
    simp
  obtain ⟨hA, hB, hC⟩ := buildGroups_aux cgroups walked (List.replicate cgroups.length []) hlen
  refine ⟨fun dp i => dcg_some_iff dp cgroups i, by simpa using hA, ?_, ?_⟩
  · intro i hi
    have := hB i [] hi (by simp [hi])
    simpa using this
  · apply List.ext_getElem?
    intro m
    rw [List.getElem?_drop, hC (cgroups.length + m) (by omega),
      List.getElem?_append_right (by simp)]
    simp

/-! ### Plain segments and normalization -/

theorem splitSeg_of_plain {s : String} (h : plainSeg s = true) : splitSeg s = [s] := by
  have h' := h
  simp only [plainSeg, Bool.and_eq_true, beq_iff_eq] at h'
  exact h'.1.1.1

theorem plainSeg_facts {s : String} (h : plainSeg s = true) :
    splitSeg s = [s] ∧ s ≠ "" ∧ s ≠ "." ∧ s ≠ ".." := by
  simp only [plainSeg, Bool.and_eq_true, beq_iff_eq, Bool.not_eq_eq_eq_not,
    Bool.not_true, beq_eq_false_iff_ne, ne_eq] at h
  exact ⟨h.1.1.1, h.1.1.2, h.1.2, h.2⟩

theorem flatMap_splitSeg_plain :
    ∀ (q : List String), (∀ s ∈ q, plainSeg s = true) → q.flatMap splitSeg = q := by
  intro q
  induction q with
  | nil => intro _; rfl
  | cons s q ih =>
    intro h
    rw [List.flatMap_cons, splitSeg_of_plain (h s (by simp)),
      ih (fun s' hs' => h s' (by simp [hs']))]
    rfl

theorem normAux_plain :
    ∀ (q : List String) (acc : List String),
      (∀ s ∈ q, plainSeg s = true) → normAux acc q = q.reverse ++ acc := by
  intro q
  induction q with
  | nil => intro acc _; simp [normAux]
  | cons c q ih =>
    intro acc h
    obtain ⟨_, hne, hnd, hndd⟩ := plainSeg_facts (h c (by simp))
    have hstep : normAux acc (c :: q) = normAux (c :: acc) q := by
      simp only [normAux]
      rw [if_neg (by simp [hne, hnd]), if_neg hndd]
    rw [hstep, ih (c :: acc) (fun s hs => h s (by simp [hs]))]
    simp

theorem normSegs_dot_plain (q : List String) (hq : ∀ s ∈ q, plainSeg s = true)
    (hne : q ≠ []) : normSegs ("." :: q) = q := by
  have hflat : ("." :: q).flatMap splitSeg = "." :: q := by
    rw [List.flatMap_cons, flatMap_splitSeg_plain q hq]
    rfl
  simp only [normSegs, hflat]
  have hstep : normAux [] ("." :: q) = normAux [] q := by
    simp [normAux]
  rw [hstep, normAux_plain q [] hq]
  simp [hne]

/-! ### Which directories the pruned walk visits -/

theorem walkForest_entries (excl : List Path) :
    ∀ (fr : FForest) (segs : List String),
      plainForest fr = true →
      (∀ s ∈ segs, plainSeg s = true) →
      (∀ q : Path, q ≠ [] → q <+: segs → q ∉ excl) →
      ∀ w ∈ walkForest excl ("." :: segs) fr,
        ∃ segs' : List String, segs' ≠ [] ∧ w.1 = "." :: segs' ∧
          (∀ s ∈ segs', plainSeg s = true) ∧
          (∀ q : Path, q ≠ [] → q <+: segs' → q ∉ excl) ∧
          (∀ f ∈ w.2, plainSeg f = true) := by
  intro fr
  induction fr with
  | nil =>
    intro segs _ _ _ w hw
    simp [walkForest] at hw
  | cons n sub fs rest ihsub ihrest =>
    intro segs hpf hps hq w hw
    have hplains : plainSeg n = true ∧ (∀ f ∈ fs, plainSeg f = true) ∧
        plainForest sub = true ∧ plainForest rest = true := by
      simpa [plainForest, and_assoc] using hpf
    obtain ⟨hn, hfs, hsub, hrest⟩ := hplains
    simp only [walkForest, List.mem_append] at hw
    cases hw with
    | inr hw => exact ihrest segs hrest hps hq w hw
    | inl hw =>
      split at hw
      · simp at hw
      · rename_i hcond
        have hseg : ("." :: segs) ++ [n] = "." :: (segs ++ [n]) := rfl
        have hplain' : ∀ s ∈ segs ++ [n], plainSeg s = true := by
          intro s hs
          rcases List.mem_append.mp hs with h | h
          · exact hps s h
          · simp at h
            subst h
            exact hn
        have hnorm : normSegs (("." :: segs) ++ [n]) = segs ++ [n] := by
          rw [hseg]
          exact normSegs_dot_plain _ hplain' (by simp)
        have hnotmem : (segs ++ [n]) ∉ excl := by
          intro hm
          have : excl.contains (normSegs (("." :: segs) ++ [n])) = true := by
            rw [hnorm]
            exact List.elem_iff.mpr hm
          exact hcond this
        have hq' : ∀ q : Path, q ≠ [] → q <+: segs ++ [n] → q ∉ excl := by
          intro q hqne hpre
          rcases List.prefix_concat_iff.mp hpre with h | h
          · subst h
            exact hnotmem
          · exact hq q hqne h
        rcases List.mem_cons.mp hw with hw | hw
        · subst hw
          exact ⟨segs ++ [n], by simp, hseg, hplain', hq', hfs⟩
        · rw [hseg] at hw
          exact ihsub (segs ++ [n]) hsub hplain' hq' w hw

theorem osWalk_entries (excl : List Path) (t : FTree) (hplain : plainTree t = true) :
    ∀ w ∈ osWalk excl t,
      (w.1 = ["."] ∧ ∀ f ∈ w.2, plainSeg f = true) ∨
      ∃ segs' : List String, segs' ≠ [] ∧ w.1 = "." :: segs' ∧
        (∀ s ∈ segs', plainSeg s = true) ∧
        (∀ q : Path, q ≠ [] → q <+: segs' → q ∉ excl) ∧
        (∀ f ∈ w.2, plainSeg f = true) := by
  have hpt : (∀ f ∈ t.rootFiles, plainSeg f = true) ∧ plainForest t.subdirs = true := by
    simpa [plainTree] using hplain
  intro w hw
  rcases List.mem_cons.mp hw with hw | hw
  · subst hw
    exact Or.inl ⟨rfl, hpt.1⟩
  · refine Or.inr (walkForest_entries excl t.subdirs [] hpt.2 (by simp) ?_ w hw)
    intro q hqne hpre
    rw [List.prefix_nil] at hpre
    exact absurd hpre hqne

/-! ### Where the paths in the pair list come from -/

theorem mem_pngFilter_ext {fn : String} {fns : List String} (h : fn ∈ pngFilter fns) :
    splitext_ext fn = ".png" := by
  have := (List.mem_filter.mp h).2
  simpa using this

theorem buildGroups_mem (cgroups : List (List Path)) :
    ∀ (walked : List (List String × List String)) (acc : List (List Path))
      (g : List Path) (p : Path),
      g ∈ buildGroups cgroups walked acc → p ∈ g →
      (∃ g₀ ∈ acc, p ∈ g₀) ∨
      ∃ w ∈ walked, ∃ fn, fn ∈ pngFilter w.2 ∧ p = w.1 ++ [fn] := by
  intro walked
  induction walked with
  | nil =>
    intro acc g p hg hp
    exact Or.inl ⟨g, hg, hp⟩
  | cons e rest ih =>
    intro acc g p hg hp
    rcases ih (walkLoopBody cgroups acc e) g p hg hp with ⟨g₀, hg₀, hp₀⟩ | ⟨w, hw, fn, hfn, hpfn⟩
    · cases hdcg : determine_compatibility_group (normSegs e.1) cgroups with
      | some i =>
        rw [walkLoopBody, hdcg] at hg₀
        rcases List.mem_or_eq_of_mem_set hg₀ with hmem | heq
        · exact Or.inl ⟨g₀, hmem, hp₀⟩
        · subst heq
          rcases List.mem_append.mp hp₀ with hpl | hpr
          · cases hacc : acc[i]? with
            | none =>
              rw [List.getD_eq_getElem?_getD, hacc] at hpl
              simp at hpl
            | some a =>
              rw [List.getD_eq_getElem?_getD, hacc] at hpl
              exact Or.inl ⟨a, List.getElem?_mem hacc, hpl⟩
          · rcases List.mem_map.mp hpr with ⟨fn, hfn, hpfn⟩
            exact Or.inr ⟨e, by simp, fn, hfn, hpfn.symm⟩
      | none =>
        rw [walkLoopBody, hdcg] at hg₀
        rcases List.mem_append.mp hg₀ with hmem | heq
        · exact Or.inl ⟨g₀, hmem, hp₀⟩
        · simp only [List.mem_singleton] at heq
          subst heq
          rcases List.mem_map.mp hp₀ with ⟨fn, hfn, hpfn⟩
          exact Or.inr ⟨e, by simp, fn, hfn, hpfn.symm⟩
    · exact Or.inr ⟨w, by simp [hw], fn, hfn, hpfn⟩

theorem shuffleGroups_mem (tape : Nat → Nat) :
    ∀ (gs : List (List Path)) (st : Nat) (pr : Path × Path),
      pr ∈ (shuffleGroups tape gs st).1 → ∃ g ∈ gs, pr.1 ∈ g ∧ pr.2 ∈ g := by
  intro gs
  induction gs with
  | nil =>
    intro st pr hpr
    simp [shuffleGroups] at hpr
  | cons g gs ih =>
    intro st pr hpr
    obtain ⟨a, b⟩ := pr
    simp only [shuffleGroups, List.mem_append] at hpr
    cases hpr with
    | inl h =>
      have hz := List.of_mem_zip h
      exact ⟨g, by simp, hz.1, ((pyShuffle_perm tape g st).mem_iff).mp hz.2⟩
    | inr h =>
      obtain ⟨g', hg', h1, h2⟩ := ih (pyShuffle tape g st).2 (a, b) h
      exact ⟨g', by simp [hg'], h1, h2⟩

theorem runPairs_eq (tape : Nat → Nat) (cfgE : List ConfigPath)
    (cfgG : List (List ConfigPath)) (t : FTree) :
    runPairs tape cfgE cfgG t =
      (shuffleGroups tape
        (buildGroups (mkCompatGroups cfgG) (osWalk (mkExcludedDirs cfgE) t)
          (List.replicate (mkCompatGroups cfgG).length [])) 0).1 := rfl

theorem runPairs_path_shape (tape : Nat → Nat) (cfgE : List ConfigPath)
    (cfgG : List (List ConfigPath)) (t : FTree) (pr : Path × Path)
    (hpr : pr ∈ runPairs tape cfgE cfgG t) :
    (∃ w ∈ osWalk (mkExcludedDirs cfgE) t, ∃ fn, fn ∈ pngFilter w.2 ∧
        pr.1 = w.1 ++ [fn]) ∧
    (∃ w ∈ osWalk (mkExcludedDirs cfgE) t, ∃ fn, fn ∈ pngFilter w.2 ∧
        pr.2 = w.1 ++ [fn]) := by
  rw [runPairs_eq] at hpr
  obtain ⟨g, hg, h1, h2⟩ := shuffleGroups_mem tape _ 0 pr hpr
  constructor
  · rcases buildGroups_mem _ _ _ g pr.1 hg h1 with ⟨g₀, hg₀, hp₀⟩ | h
    · rw [List.eq_of_mem_replicate hg₀] at hp₀
      simp at hp₀
    · exact h
  · rcases buildGroups_mem _ _ _ g pr.2 hg h2 with ⟨g₀, hg₀, hp₀⟩ | h
    · rw [List.eq_of_mem_replicate hg₀] at hp₀
      simp at hp₀
    · exact h

theorem not_strictlyUnder_of_walk (excl : List Path) (t : FTree)
    (hplain : plainTree t = true) (e : Path) (he : e ∈ excl) (hne : e ≠ [])
    (w : List String × List String) (hw : w ∈ osWalk excl t) (fn : String)
    (hfn : fn ∈ pngFilter w.2) : ¬ strictlyUnder e (normSegs (w.1 ++ [fn])) := by
  have hfnw : fn ∈ w.2 := List.mem_of_mem_filter hfn
  rcases osWalk_entries excl t hplain w hw with ⟨hw1, hfplain⟩ | ⟨segs', hne', hw1, hsplain, hq, hfplain⟩
  · rw [hw1]
    simp only [List.singleton_append]
    have hnorm : normSegs ([".", fn]) = [fn] := by
      refine normSegs_dot_plain [fn] ?_ (by simp)
      simpa using hfplain fn hfnw
    rintro ⟨hpre, hneq⟩
    rw [hnorm] at hpre hneq
    rcases List.prefix_cons_iff.mp hpre with h | ⟨t', ht', htp⟩
    · exact hne h
    · rw [List.prefix_nil] at htp
      subst htp
      exact hneq ht'
  · rw [hw1]
    have happ : ("." :: segs') ++ [fn] = "." :: (segs' ++ [fn]) := rfl
    have hplain' : ∀ s ∈ segs' ++ [fn], plainSeg s = true := by
      intro s hs
      rcases List.mem_append.mp hs with h | h
      · exact hsplain s h
      · simp at h
        rw [h]
        exact hfplain fn hfnw
    have hnorm : normSegs (("." :: segs') ++ [fn]) = segs' ++ [fn] := by
      rw [happ]
      exact normSegs_dot_plain _ hplain' (by simp)
    rintro ⟨hpre, hneq⟩
    rw [hnorm] at hpre hneq
    rcases List.prefix_concat_iff.mp hpre with h | h
    · exact hneq h
    · exact hq e hne h he

/-- Claim C7: a subdirectory whose normalized path is a configured
excluded entry is pruned before descent — no visited subdirectory lies
at or below any excluded entry — and consequently no pair of the run
references a file strictly under an excluded entry, as source or as
destination. -/
theorem excluded_directory_never_referenced (tape : Nat → Nat) (cfgE : List ConfigPath)
    (cfgG : List (List ConfigPath)) (t : FTree) (hplain : plainTree t = true)
    (e : Path) (he : e ∈ mkExcludedDirs cfgE) (hne : e ≠ [])
    (pr : Path × Path) (hpr : pr ∈ runPairs tape cfgE cfgG t) :
    (∀ w ∈ walkForest (mkExcludedDirs cfgE) ["."] t.subdirs, ¬ (e <+: normSegs w.1)) ∧
    ¬ strictlyUnder e (normSegs pr.1) ∧ ¬ strictlyUnder e (normSegs pr.2) := by
  have hpt : (∀ f ∈ t.rootFiles, plainSeg f = true) ∧ plainForest t.subdirs = true := by
    simpa [plainTree] using hplain
  obtain ⟨hsrc, hdst⟩ := runPairs_path_shape tape cfgE cfgG t pr hpr
  refine ⟨?_, ?_, ?_⟩
  · intro w hw
    obtain ⟨segs', hne', hw1, hsp, hq, _⟩ :=
      walkForest_entries (mkExcludedDirs cfgE) t.subdirs [] hpt.2 (by simp)
        (fun q hqne hpre => absurd (List.prefix_nil.mp hpre) hqne) w hw
    rw [hw1, normSegs_dot_plain segs' hsp hne']
    intro hpre
    exact hq e hne hpre he
  · obtain ⟨w, hw, fn, hfn, hp⟩ := hsrc
    rw [hp]
    exact not_strictlyUnder_of_walk _ t hplain e he hne w hw fn hfn
  · obtain ⟨w, hw, fn, hfn, hp⟩ := hdst
    rw [hp]
    exact not_strictlyUnder_of_walk _ t hplain e he hne w hw fn hfn

/-- Witness for C7 on a concrete run: one excluded directory `ex` with a
texture inside, one root texture; the pair list never touches `ex`. -/
theorem excluded_directory_never_referenced_witness :
    (∀ w ∈ walkForest (mkExcludedDirs [ConfigPath.str "ex"]) ["."]
        (FForest.cons "ex" FForest.nil ["x.png"] FForest.nil),
      ¬ (["ex"] <+: normSegs w.1)) ∧
    ¬ strictlyUnder ["ex"] (normSegs [".", "a.png"]) ∧
    ¬ strictlyUnder ["ex"] (normSegs [".", "a.png"]) :=
  excluded_directory_never_referenced (fun _ => 0) [ConfigPath.str "ex"] []
    ⟨["a.png"], FForest.cons "ex" FForest.nil ["x.png"] FForest.nil⟩ (by decide)
    ["ex"] (by decide) (by decide) ([".", "a.png"], [".", "a.png"]) (by decide)

/-- Claim C8: every path a pair references, source or destination, ends
in a file name whose extension is exactly `".png"`; files of any other
extension are dropped by the filter and never referenced. -/
theorem non_png_never_referenced (tape : Nat → Nat) (cfgE : List ConfigPath)
    (cfgG : List (List ConfigPath)) (t : FTree) (pr : Path × Path)
    (hpr : pr ∈ runPairs tape cfgE cfgG t) :
    (∃ fn, pr.1.getLast? = some fn ∧ splitext_ext fn = ".png") ∧
    (∃ fn, pr.2.getLast? = some fn ∧ splitext_ext fn = ".png") := by
  obtain ⟨h1, h2⟩ := runPairs_path_shape tape cfgE cfgG t pr hpr
  constructor
  · obtain ⟨w, _, fn, hfn, hp⟩ := h1
    refine ⟨fn, ?_, mem_pngFilter_ext hfn⟩
    rw [hp]
    exact List.getLast?_concat _
  · obtain ⟨w, _, fn, hfn, hp⟩ := h2
    refine ⟨fn, ?_, mem_pngFilter_ext hfn⟩
    rw [hp]
    exact List.getLast?_concat _

/-- Witness for C8 on a concrete run with a `.txt` file present. -/
theorem non_png_never_referenced_witness :
    (∃ fn, ([".", "a.png"] : Path).getLast? = some fn ∧ splitext_ext fn = ".png") ∧
    (∃ fn, ([".", "a.png"] : Path).getLast? = some fn ∧ splitext_ext fn = ".png") :=
  non_png_never_referenced (fun _ => 0) [] []
    ⟨["a.png", "b.txt"], FForest.nil⟩ ([".", "a.png"], [".", "a.png"]) (by decide)

/-- Witness for C1 at a concrete two-element group plus a singleton. -/
theorem shuffler_groupwise_permutation_witness :
    ∃ chunks : List (List (Path × Path)),
      (shuffleGroups (fun n => n + 1) [[["a"], ["b"]], [["c"]]] 0).1 = chunks.flatten ∧
      chunks.length = ([[["a"], ["b"]], [["c"]]] : List (List Path)).length ∧
      ∀ i, i < ([[["a"], ["b"]], [["c"]]] : List (List Path)).length →
        ∃ g chunk, ([[["a"], ["b"]], [["c"]]] : List (List Path))[i]? = some g ∧
          chunks[i]? = some chunk ∧
          chunk.map Prod.fst = g ∧ List.Perm (chunk.map Prod.snd) g :=
  shuffler_groupwise_permutation (fun n => n + 1) [[["a"], ["b"]], [["c"]]] 0

/-- Witness for C6 at a concrete configuration where the same directory
appears in two configured groups and one walked directory is unmatched. -/
theorem classifier_first_match_witness :
    (∀ dp i, determine_compatibility_group dp [[["item"]], [["item"], ["block"]]] = some i ↔
        ((∃ g, ([[["item"]], [["item"], ["block"]]] : List (List Path))[i]? = some g ∧
            normSegs dp ∈ g) ∧
         ∀ j g', j < i → ([[["item"]], [["item"], ["block"]]] : List (List Path))[j]? =
            some g' → normSegs dp ∉ g')) ∧
    ((buildGroups [[["item"]], [["item"], ["block"]]]
        [(["item"], ["i.png"]), (["misc"], ["m.png"])]
        (List.replicate ([[["item"]], [["item"], ["block"]]] : List (List Path)).length
          [])).length =
      ([[["item"]], [["item"], ["block"]]] : List (List Path)).length +
        ((([(["item"], ["i.png"]), (["misc"], ["m.png"])] :
            List (List String × List String))).filter (fun e =>
          (determine_compatibility_group (normSegs e.1)
            [[["item"]], [["item"], ["block"]]]).isNone)).length) ∧
    (∀ i, i < ([[["item"]], [["item"], ["block"]]] : List (List Path)).length →
        (buildGroups [[["item"]], [["item"], ["block"]]]
          [(["item"], ["i.png"]), (["misc"], ["m.png"])]
          (List.replicate ([[["item"]], [["item"], ["block"]]] : List (List Path)).length
            []))[i]? =
          some ((((([(["item"], ["i.png"]), (["misc"], ["m.png"])] :
              List (List String × List String))).filter (fun e =>
            determine_compatibility_group (normSegs e.1)
              [[["item"]], [["item"], ["block"]]] == some i)).map
              eligibleFiles).flatten)) ∧
    ((buildGroups [[["item"]], [["item"], ["block"]]]
        [(["item"], ["i.png"]), (["misc"], ["m.png"])]
        (List.replicate ([[["item"]], [["item"], ["block"]]] : List (List Path)).length
          [])).drop ([[["item"]], [["item"], ["block"]]] : List (List Path)).length =
      ((([(["item"], ["i.png"]), (["misc"], ["m.png"])] :
          List (List String × List String))).filter (fun e =>
        (determine_compatibility_group (normSegs e.1)
          [[["item"]], [["item"], ["block"]]]).isNone)).map eligibleFiles) :=
  classifier_first_match_and_singleton_append [[["item"]], [["item"], ["block"]]]
    [(["item"], ["i.png"]), (["misc"], ["m.png"])]

/-! ### Exit behaviour, created artifacts and the working directory -/

/-- Claim C10: a seed argument that does not parse as an integer makes
`int(sys.argv[1])` raise an uncaught `ValueError` at the seed-parsing
step, before the tree is traversed and before anything is created. -/
theorem bad_seed_argument_crashes_before_traversal (packExists srcTexturesExists : Bool)
    (cfgE : List ConfigPath) (cfgG : List (List ConfigPath)) (t : FTree)
    (tape : Nat → Nat) (packName : String) (rmtreeFails : Bool) :
    mainModel (some none) packExists srcTexturesExists cfgE cfgG t tape packName
        rmtreeFails =
      MainOutcome.uncaught Phase.seedParse "ValueError: invalid literal for int()" [] := rfl

/-- Claim C3: whenever `pack/assets/minecraft/textures` does not exist
the run ends abnormally — by the explicit check and `sys.exit(1)` when
`pack` itself is missing, by the uncaught `os.chdir` error otherwise —
with an error message surfaced and no artifact created. -/
theorem missing_source_dir_aborts_without_output (argSeed : Option (Option Int))
    (packExists : Bool) (cfgE : List ConfigPath) (cfgG : List (List ConfigPath))
    (t : FTree) (tape : Nat → Nat) (packName : String) (rmtreeFails : Bool) :
    (mainModel argSeed packExists false cfgE cfgG t tape packName
        rmtreeFails).isAbnormal = true ∧
    (mainModel argSeed packExists false cfgE cfgG t tape packName
        rmtreeFails).createdFiles = [] ∧
    (mainModel argSeed packExists false cfgE cfgG t tape packName
        rmtreeFails).message ≠ "" := by
  rcases argSeed with _ | s
  · cases packExists
    · exact ⟨rfl, rfl, by
        show ("error: source directory must exist" : String) ≠ ""
        decide⟩
    · exact ⟨rfl, rfl, by
        show ("FileNotFoundError: pack/assets/minecraft/textures" : String) ≠ ""
        decide⟩
  · rcases s with _ | v
    · exact ⟨rfl, rfl, by
        show ("ValueError: invalid literal for int()" : String) ≠ ""
        decide⟩
    · cases packExists
      · exact ⟨rfl, rfl, by
          show ("error: source directory must exist" : String) ≠ ""
          decide⟩
      · exact ⟨rfl, rfl, by
          show ("FileNotFoundError: pack/assets/minecraft/textures" : String) ≠ ""
          decide⟩

theorem walkLoopErr_cases (cgroups : List (List Path)) :
    ∀ (errAt : Option Nat) (walked : List (List String × List String))
      (acc : List (List Path)),
      walkLoopErr cgroups errAt walked acc = .error () ∨
      walkLoopErr cgroups errAt walked acc = .ok (buildGroups cgroups walked acc) := by
  intro errAt walked
  induction walked generalizing errAt with
  | nil => intro acc; exact Or.inr rfl
  | cons e rest ih =>
    intro acc
    by_cases h0 : errAt = some 0
    · left
      simp [walkLoopErr, h0]
    · rcases ih (errAt.map (fun k => k - 1)) (walkLoopBody cgroups acc e) with h | h
      · left
        simpa [walkLoopErr, h0] using h
      · right
        simpa [walkLoopErr, h0, buildGroups] using h

/-- Counterexample to claim C4 as stated: an exception at the first walk
loop iteration leaves the phase with the working directory still the
texture root — line 186's restore is never reached, there being no
try/finally. -/
theorem cwd_not_restored_on_error_counterexample :
    (traversalPhase ["home", "user"] ["pack", "assets", "minecraft", "textures"] []
        [(["."], ["a.png"])] (some 0)).2 ≠ ["home", "user"] := by decide

/-- Claim C4 amended: the traversal phase either completes the loop and
restores the original working directory before returning, or an error
escapes the loop and the phase propagates it with the working directory
still set to the source texture root. -/
theorem cwd_restored_on_normal_return (original_cwd src_path : Path)
    (cgroups : List (List Path)) (walked : List (List String × List String))
    (errAt : Option Nat) :
    ((traversalPhase original_cwd src_path cgroups walked errAt).2 = original_cwd ∧
      (traversalPhase original_cwd src_path cgroups walked errAt).1 =
        .ok (buildGroups cgroups walked (List.replicate cgroups.length []))) ∨
    ((traversalPhase original_cwd src_path cgroups walked errAt).1 = .error () ∧
      (traversalPhase original_cwd src_path cgroups walked errAt).2 = src_path) := by
  rcases walkLoopErr_cases cgroups errAt walked (List.replicate cgroups.length []) with h | h
  · right
    constructor <;> simp [traversalPhase, h]
  · left
    constructor <;> simp [traversalPhase, h]

/-- Counterexample to claim C5 as stated: when `shutil.rmtree` fails
after a successful compression the run terminates abnormally — it does
not continue. -/
theorem cleanup_failure_aborts_counterexample :
    (mainModel none true true [] [] ⟨[], FForest.nil⟩ (fun _ => 0) "pack-out"
        true).isAbnormal = true := by decide

/-- Claim C5 amended: a cleanup failure after successful compression is
an uncaught exception: the run terminates at the cleanup phase (with the
error surfaced by the interpreter) rather than continuing, and the
already-written archive is among the created artifacts and is kept. -/
theorem cleanup_failure_terminates_with_archive_kept (cfgE : List ConfigPath)
    (cfgG : List (List ConfigPath)) (t : FTree) (tape : Nat → Nat) (packName : String) :
    mainModel none true true cfgE cfgG t tape packName true =
      MainOutcome.uncaught Phase.cleanup "error: could not remove intermediate directory"
        (createdUpTo packName (runPairs tape cfgE cfgG t) ++ [packName ++ ".zip"]) ∧
    (packName ++ ".zip") ∈
      (mainModel none true true cfgE cfgG t tape packName true).createdFiles := by
  constructor
  · rfl
  · simp [mainModel, MainOutcome.createdFiles]

end TextureRandomizer
